import Mathlib

/-!
# Verification of the `char-ranges` crate

A shallow embedding of `src/lib.rs` of the `char-ranges` crate.

Modelling choices:
* A UTF-8 `&str` is modelled as a `List Char` (its sequence of Unicode
  scalar values); its byte buffer is recovered by `encodeText`.
* `core::str::CharIndices` is modelled as `CharIndices`: the byte offset of
  the front boundary together with the list of remaining characters.  Its
  `next` returns the front character with its start offset and advances the
  front boundary by the character's UTF-8 length; `next_back` returns the
  last character with offset `front_offset + byte length of the rest`, as in
  the Rust standard library.  `nth`/`nth_back` are the standard library's
  default implementations (repeated `next`/`next_back`), which is their
  observable behaviour.
* Rust `usize` values are `Nat`; the one addition that can actually
  overflow for real inputs (`range bound + offset` in `CharRangesOffset`)
  is taken modulo `2 ^ 64` (`uadd`), which is release-mode Rust semantics.
* Iterator methods take the state and return `(output, new state)`,
  mirroring `&mut self`.
-/

set_option linter.unusedVariables false

/-- Constant `usize::MAX + 1`: the modulus of 64-bit `usize` arithmetic. -/
def USIZE : Nat := 2 ^ 64

/-- Wrapping `usize` addition, as in `r.start + self.offset` in release mode. -/
def uadd (o x : Nat) : Nat := (x + o) % USIZE

/-- Rust `char::len_utf8`: the number of bytes of the UTF-8 encoding. -/
def lenUtf8 (c : Char) : Nat :=
  if c.toNat < 0x80 then 1
  else if c.toNat < 0x800 then 2
  else if c.toNat < 0x10000 then 3
  else 4

/-- UTF-8 encoding of a code point (assumed to be a Unicode scalar value). -/
def encodeCp (n : Nat) : List Nat :=
  if n < 0x80 then [n]
  else if n < 0x800 then [0xC0 + n / 0x40, 0x80 + n % 0x40]
  else if n < 0x10000 then
    [0xE0 + n / 0x1000, 0x80 + (n / 0x40) % 0x40, 0x80 + n % 0x40]
  else
    [0xF0 + n / 0x40000, 0x80 + (n / 0x1000) % 0x40,
     0x80 + (n / 0x40) % 0x40, 0x80 + n % 0x40]

/-- UTF-8 encoding of a character. -/
def encodeChar (c : Char) : List Nat := encodeCp c.toNat

/-- The byte buffer of a text. -/
def encodeText (t : List Char) : List Nat := (t.map encodeChar).flatten

/-- The UTF-8 byte length of a text. -/
def byteLen (t : List Char) : Nat := (t.map lenUtf8).sum

/-- Decode one UTF-8 encoded code point from the front of a byte list,
returning the code point and the remaining bytes, or `none` if the front is
not a valid UTF-8 encoding (bad leading byte, bad continuation byte,
overlong form, surrogate, out of range, truncation). -/
def decodeOne (l : List Nat) : Option (Nat × List Nat) :=
  if l.length = 0 then none
  else if l.getD 0 0 < 0x80 then some (l.getD 0 0, l.drop 1)
  else if l.getD 0 0 < 0xC0 then none
  else if l.getD 0 0 < 0xE0 then
    if 2 ≤ l.length ∧ 0x80 ≤ l.getD 1 0 ∧ l.getD 1 0 < 0xC0 ∧
        0x80 ≤ (l.getD 0 0 - 0xC0) * 0x40 + (l.getD 1 0 - 0x80) then
      some ((l.getD 0 0 - 0xC0) * 0x40 + (l.getD 1 0 - 0x80), l.drop 2)
    else none
  else if l.getD 0 0 < 0xF0 then
    if 3 ≤ l.length ∧ 0x80 ≤ l.getD 1 0 ∧ l.getD 1 0 < 0xC0 ∧
        0x80 ≤ l.getD 2 0 ∧ l.getD 2 0 < 0xC0 ∧
        0x800 ≤ (l.getD 0 0 - 0xE0) * 0x1000 + (l.getD 1 0 - 0x80) * 0x40 + (l.getD 2 0 - 0x80) ∧
        ¬(0xD800 ≤ (l.getD 0 0 - 0xE0) * 0x1000 + (l.getD 1 0 - 0x80) * 0x40 +
            (l.getD 2 0 - 0x80) ∧
          (l.getD 0 0 - 0xE0) * 0x1000 + (l.getD 1 0 - 0x80) * 0x40 +
            (l.getD 2 0 - 0x80) ≤ 0xDFFF) then
      some ((l.getD 0 0 - 0xE0) * 0x1000 + (l.getD 1 0 - 0x80) * 0x40 + (l.getD 2 0 - 0x80),
        l.drop 3)
    else none
  else
    if 4 ≤ l.length ∧ l.getD 0 0 < 0xF5 ∧ 0x80 ≤ l.getD 1 0 ∧ l.getD 1 0 < 0xC0 ∧
        0x80 ≤ l.getD 2 0 ∧ l.getD 2 0 < 0xC0 ∧ 0x80 ≤ l.getD 3 0 ∧ l.getD 3 0 < 0xC0 ∧
        0x10000 ≤ (l.getD 0 0 - 0xF0) * 0x40000 + (l.getD 1 0 - 0x80) * 0x1000 +
          (l.getD 2 0 - 0x80) * 0x40 + (l.getD 3 0 - 0x80) ∧
        (l.getD 0 0 - 0xF0) * 0x40000 + (l.getD 1 0 - 0x80) * 0x1000 +
          (l.getD 2 0 - 0x80) * 0x40 + (l.getD 3 0 - 0x80) < 0x110000 then
      some ((l.getD 0 0 - 0xF0) * 0x40000 + (l.getD 1 0 - 0x80) * 0x1000 +
          (l.getD 2 0 - 0x80) * 0x40 + (l.getD 3 0 - 0x80),
        l.drop 4)
    else none

/-- Fuelled iteration of `decodeOne`; each step consumes at least one byte,
so fuel equal to the byte count never runs out. -/
def decodeFuel : Nat → List Nat → Option (List Nat)
  | _, [] => some []
  | 0, _ :: _ => none
  | fuel + 1, b :: rest =>
    match decodeOne (b :: rest) with
    | none => none
    | some (n, rest1) => (decodeFuel fuel rest1).map (fun t => n :: t)

/-- A strict UTF-8 decoder: decodes a byte list to the list of code points,
or `none` if the bytes are not a valid UTF-8 encoding. -/
def utf8DecodeAll (l : List Nat) : Option (List Nat) := decodeFuel l.length l

/-- Model of `core::str::CharIndices`: the byte offset of the front boundary
of the remaining view, and the remaining characters. -/
structure CharIndices where
  frontOffset : Nat
  chars : List Char
deriving Repr, DecidableEq

/-- Rust `CharIndices::next`: pop the front character, returning its start byte
offset, and advance the front boundary by its UTF-8 length. -/
def CharIndices.next (s : CharIndices) : Option (Nat × Char) × CharIndices :=
  match s.chars with
  | [] => (none, s)
  | c :: rest => (some (s.frontOffset, c), ⟨s.frontOffset + lenUtf8 c, rest⟩)

/-- Rust `CharIndices::next_back`: pop the last character; its index is the front
offset plus the byte length of the characters before it. -/
def CharIndices.next_back (s : CharIndices) : Option (Nat × Char) × CharIndices :=
  match s.chars.getLast? with
  | none => (none, s)
  | some c =>
    (some (s.frontOffset + byteLen s.chars.dropLast, c), ⟨s.frontOffset, s.chars.dropLast⟩)

/-- Rust `Iterator::nth` (observable behaviour): advance `n` times with `next`,
then return `next`; stops (exhausted) as soon as `next` returns `none`. -/
def CharIndices.nth : CharIndices → Nat → Option (Nat × Char) × CharIndices
  | s, 0 => s.next
  | s, n + 1 =>
    match s.next with
    | (none, s1) => (none, s1)
    | (some _, s1) => s1.nth n

/-- Rust `DoubleEndedIterator::nth_back` (observable behaviour): advance `n` times
with `next_back`, then return `next_back`. -/
def CharIndices.nth_back : CharIndices → Nat → Option (Nat × Char) × CharIndices
  | s, 0 => s.next_back
  | s, n + 1 =>
    match s.next_back with
    | (none, s1) => (none, s1)
    | (some _, s1) => s1.nth_back n

/-- Rust `CharIndices::as_str`: the remaining view. -/
def CharIndices.as_str (s : CharIndices) : List Char := s.chars

/-- Rust `CharRanges`, wrapping a `CharIndices` (src/lib.rs line 152). -/
structure CharRanges where
  iter : CharIndices
deriving Repr, DecidableEq

/-- Rust `CharRanges::new(text)`: `text.char_indices()` starts at offset 0 with
the whole text remaining. -/
def CharRanges.new (t : List Char) : CharRanges := ⟨⟨0, t⟩⟩

/-- Rust `CharRanges::as_str`: the remaining substring. -/
def CharRanges.as_str (s : CharRanges) : List Char := s.iter.as_str

/-- Rust `CharRanges::next`: `let (start, c) = self.iter.next()?;
let end = start + c.len_utf8(); Some((start..end, c))`. -/
def CharRanges.next (s : CharRanges) : Option ((Nat × Nat) × Char) × CharRanges :=
  match s.iter.next with
  | (o, i) => (o.map (fun p => ((p.1, p.1 + lenUtf8 p.2), p.2)), ⟨i⟩)

/-- Rust `CharRanges::next_back`, same range construction on `iter.next_back()`. -/
def CharRanges.next_back (s : CharRanges) : Option ((Nat × Nat) × Char) × CharRanges :=
  match s.iter.next_back with
  | (o, i) => (o.map (fun p => ((p.1, p.1 + lenUtf8 p.2), p.2)), ⟨i⟩)

/-- Rust `CharRanges::nth`: delegates to `self.iter.nth(n)` and builds the range
only for the returned character. -/
def CharRanges.nth (s : CharRanges) (n : Nat) : Option ((Nat × Nat) × Char) × CharRanges :=
  match s.iter.nth n with
  | (o, i) => (o.map (fun p => ((p.1, p.1 + lenUtf8 p.2), p.2)), ⟨i⟩)

/-- Rust `CharRanges::nth_back`: delegates to `self.iter.nth_back(n)`. -/
def CharRanges.nth_back (s : CharRanges) (n : Nat) : Option ((Nat × Nat) × Char) × CharRanges :=
  match s.iter.nth_back n with
  | (o, i) => (o.map (fun p => ((p.1, p.1 + lenUtf8 p.2), p.2)), ⟨i⟩)

/-- Rust `CharRanges::last`: `fn last(mut self) -> ... { self.next_back() }`. -/
def CharRanges.last (s : CharRanges) : Option ((Nat × Nat) × Char) := (s.next_back).1

/-- Rust `CharRangesOffset`, wrapping a `CharRanges` and a fixed offset. -/
structure CharRangesOffset where
  iter : CharRanges
  offset : Nat
deriving Repr, DecidableEq

/-- Rust `CharRangesOffset::new(offset, text)`. -/
def CharRangesOffset.new (o : Nat) (t : List Char) : CharRangesOffset :=
  ⟨CharRanges.new t, o⟩

/-- Rust `CharRanges::offset(self, offset)`. -/
def CharRanges.offset (s : CharRanges) (o : Nat) : CharRangesOffset := ⟨s, o⟩

/-- Rust `CharRangesOffset::as_str`: delegates to the wrapped iterator. -/
def CharRangesOffset.as_str (s : CharRangesOffset) : List Char := s.iter.as_str

/-- Shift a yielded item by the stored offset (`usize` addition). -/
def shiftItem (o : Nat) (p : (Nat × Nat) × Char) : (Nat × Nat) × Char :=
  ((uadd o p.1.1, uadd o p.1.2), p.2)

/-- Rust `CharRangesOffset::next`: delegate, then add the offset to both bounds. -/
def CharRangesOffset.next (s : CharRangesOffset) :
    Option ((Nat × Nat) × Char) × CharRangesOffset :=
  match s.iter.next with
  | (o, i) => (o.map (shiftItem s.offset), ⟨i, s.offset⟩)

/-- Rust `CharRangesOffset::next_back`. -/
def CharRangesOffset.next_back (s : CharRangesOffset) :
    Option ((Nat × Nat) × Char) × CharRangesOffset :=
  match s.iter.next_back with
  | (o, i) => (o.map (shiftItem s.offset), ⟨i, s.offset⟩)

/-- Rust `CharRangesOffset::nth`. -/
def CharRangesOffset.nth (s : CharRangesOffset) (n : Nat) :
    Option ((Nat × Nat) × Char) × CharRangesOffset :=
  match s.iter.nth n with
  | (o, i) => (o.map (shiftItem s.offset), ⟨i, s.offset⟩)

/-- Rust `CharRangesOffset::nth_back`. -/
def CharRangesOffset.nth_back (s : CharRangesOffset) (n : Nat) :
    Option ((Nat × Nat) × Char) × CharRangesOffset :=
  match s.iter.nth_back n with
  | (o, i) => (o.map (shiftItem s.offset), ⟨i, s.offset⟩)

/-- Rust `CharRangesOffset::last`: `self.next_back()`. -/
def CharRangesOffset.last (s : CharRangesOffset) : Option ((Nat × Nat) × Char) :=
  (s.next_back).1

/-- A traversal call on the iterator. -/
inductive Op
  | next
  | next_back
  | nth (n : Nat)
  | nth_back (n : Nat)
deriving Repr, DecidableEq

/-- Run one traversal call on a `CharRanges`. -/
def CharRanges.exec (s : CharRanges) : Op → Option ((Nat × Nat) × Char) × CharRanges
  | Op.next => s.next
  | Op.next_back => s.next_back
  | Op.nth n => s.nth n
  | Op.nth_back n => s.nth_back n

/-- Run a sequence of traversal calls; result is the final state. -/
def CharRanges.run (s : CharRanges) : List Op → CharRanges
  | [] => s
  | op :: ops => ((s.exec op).2).run ops

/-- Run a sequence of traversal calls, collecting the outputs. -/
def CharRanges.runOutputs (s : CharRanges) : List Op → List (Option ((Nat × Nat) × Char))
  | [] => []
  | op :: ops => (s.exec op).1 :: ((s.exec op).2).runOutputs ops

/-- Run one traversal call on a `CharRangesOffset`. -/
def CharRangesOffset.exec (s : CharRangesOffset) :
    Op → Option ((Nat × Nat) × Char) × CharRangesOffset
  | Op.next => s.next
  | Op.next_back => s.next_back
  | Op.nth n => s.nth n
  | Op.nth_back n => s.nth_back n

/-- Run a sequence of traversal calls on a `CharRangesOffset`. -/
def CharRangesOffset.run (s : CharRangesOffset) : List Op → CharRangesOffset
  | [] => s
  | op :: ops => ((s.exec op).2).run ops

/-- Run a sequence of traversal calls on a `CharRangesOffset`, collecting outputs. -/
def CharRangesOffset.runOutputs (s : CharRangesOffset) :
    List Op → List (Option ((Nat × Nat) × Char))
  | [] => []
  | op :: ops => (s.exec op).1 :: ((s.exec op).2).runOutputs ops

/-- The item sequence of a full front-to-back traversal starting at front
offset `f` over the character list `l`. -/
def toListFrontAux (f : Nat) : List Char → List ((Nat × Nat) × Char)
  | [] => []
  | c :: rest => ((f, f + lenUtf8 c), c) :: toListFrontAux (f + lenUtf8 c) rest

/-- The item sequence of repeated `next` until exhaustion. -/
def CharRanges.toListFront (s : CharRanges) : List ((Nat × Nat) × Char) :=
  toListFrontAux s.iter.frontOffset s.iter.chars

/-- Fuelled repetition of `next_back` until exhaustion. -/
def backFuel : Nat → CharRanges → List ((Nat × Nat) × Char)
  | 0, _ => []
  | fuel + 1, s =>
    match s.next_back with
    | (none, _) => []
    | (some x, s1) => x :: backFuel fuel s1

/-- The item sequence of repeated `next_back` until exhaustion. -/
def CharRanges.toListBack (s : CharRanges) : List ((Nat × Nat) × Char) :=
  backFuel s.iter.chars.length s

/-- Fuelled repetition of `CharRangesOffset.next` until exhaustion. -/
def frontFuelO : Nat → CharRangesOffset → List ((Nat × Nat) × Char)
  | 0, _ => []
  | fuel + 1, s =>
    match s.next with
    | (none, _) => []
    | (some x, s1) => x :: frontFuelO fuel s1

/-- The item sequence of repeated `CharRangesOffset.next` until exhaustion. -/
def CharRangesOffset.toListFront (s : CharRangesOffset) : List ((Nat × Nat) × Char) :=
  frontFuelO s.iter.iter.chars.length s

/-- The byte offset of the back boundary of the remaining view. -/
def backByte (s : CharRanges) : Nat := s.iter.frontOffset + byteLen s.iter.chars

/-- Does the call consume from the front (`next` / `nth`)? -/
def Op.isFront : Op → Bool
  | Op.next => true
  | Op.nth _ => true
  | _ => false

/-- Boundary trackers by yield: the end offset of the most recently
front-yielded item and the start offset of the most recently back-yielded
item, updated only when a call returns an item to the caller. -/
def boundsYield : CharRanges → List Op → Option Nat → Option Nat → Option Nat × Option Nat
  | _, [], f, b => (f, b)
  | s, op :: ops, f, b =>
    match s.exec op with
    | (some ((st, en), _), s1) =>
      if op.isFront then boundsYield s1 ops (some en) b
      else boundsYield s1 ops f (some st)
    | (none, s1) => boundsYield s1 ops f b

/-- Boundary trackers by consumption: the front boundary moves exactly when
a call consumes characters from the front, and the new front boundary is the
end offset of the last front-consumed character (symmetrically for the
back). -/
def boundsConsumed : CharRanges → List Op → Option Nat → Option Nat → Option Nat × Option Nat
  | _, [], f, b => (f, b)
  | s, op :: ops, f, b =>
    boundsConsumed (s.exec op).2 ops
      (if (s.exec op).2.iter.frontOffset ≠ s.iter.frontOffset
        then some (s.exec op).2.iter.frontOffset else f)
      (if backByte (s.exec op).2 ≠ backByte s then some (backByte (s.exec op).2) else b)

/-- The cursor invariant: the remaining characters are a contiguous slice of
the original text, and the front boundary is the byte length of the part of
the text before the slice. -/
def CursorInv (t : List Char) (s : CharRanges) : Prop :=
  ∃ pre post, t = pre ++ s.iter.chars ++ post ∧ s.iter.frontOffset = byteLen pre

theorem lenUtf8_pos (c : Char) : 1 ≤ lenUtf8 c := by
  unfold lenUtf8; split_ifs <;> omega

theorem length_encodeChar (c : Char) : (encodeChar c).length = lenUtf8 c := by
  unfold encodeChar encodeCp lenUtf8; split_ifs <;> rfl

theorem byteLen_nil : byteLen [] = 0 := rfl

theorem byteLen_cons (c : Char) (t : List Char) :
    byteLen (c :: t) = lenUtf8 c + byteLen t := by
  simp [byteLen]

theorem byteLen_append (a b : List Char) :
    byteLen (a ++ b) = byteLen a + byteLen b := by
  simp [byteLen]

theorem encodeText_nil : encodeText [] = [] := rfl

theorem encodeText_cons (c : Char) (t : List Char) :
    encodeText (c :: t) = encodeChar c ++ encodeText t := by
  simp [encodeText]

theorem encodeText_append (a b : List Char) :
    encodeText (a ++ b) = encodeText a ++ encodeText b := by
  simp [encodeText]

theorem length_encodeText (t : List Char) : (encodeText t).length = byteLen t := by
  induction t with
  | nil => rfl
  | cons c t ih =>
    rw [encodeText_cons, byteLen_cons, List.length_append, length_encodeChar, ih]

theorem decodeOne_encodeCp (n : Nat) (h1 : n < 0x110000)
    (h2 : ¬(0xD800 ≤ n ∧ n ≤ 0xDFFF)) :
    decodeOne (encodeCp n) = some (n, []) := by
  rcases Nat.lt_or_ge n 0x80 with h80 | h80
  · rw [encodeCp, if_pos h80]
    simp [decodeOne, h80]
  rcases Nat.lt_or_ge n 0x800 with h800 | h800
  · rw [encodeCp, if_neg (by omega), if_pos h800]
    simp only [decodeOne]
    simp
    split_ifs <;> simp_all <;> omega
  rcases Nat.lt_or_ge n 0x10000 with h10000 | h10000
  · rw [encodeCp, if_neg (by omega), if_neg (by omega), if_pos h10000]
    simp only [decodeOne]
    simp
    split_ifs <;> simp_all <;> omega
  · rw [encodeCp, if_neg (by omega), if_neg (by omega), if_neg (by omega)]
    simp only [decodeOne]
    simp
    split_ifs <;> simp_all <;> omega

theorem decodeFuel_cons (fuel b : Nat) (rest : List Nat) (n : Nat) (rest1 : List Nat)
    (h : decodeOne (b :: rest) = some (n, rest1)) :
    decodeFuel (fuel + 1) (b :: rest) = (decodeFuel fuel rest1).map (fun t => n :: t) := by
  rw [decodeFuel, h]

theorem decodeFuel_nil (fuel : Nat) : decodeFuel fuel [] = some [] := by
  cases fuel <;> rfl

/-- Decoding the UTF-8 encoding of a Unicode scalar value gives back exactly
that one code point. -/
theorem utf8DecodeAll_encodeCp (n : Nat) (h1 : n < 0x110000)
    (h2 : ¬(0xD800 ≤ n ∧ n ≤ 0xDFFF)) :
    utf8DecodeAll (encodeCp n) = some [n] := by
  have hone : decodeOne (encodeCp n) = some (n, []) := decodeOne_encodeCp n h1 h2
  obtain ⟨b, tail, hbt⟩ : ∃ b tail, encodeCp n = b :: tail := by
    unfold encodeCp; split_ifs <;> exact ⟨_, _, rfl⟩
  unfold utf8DecodeAll
  rw [hbt] at hone ⊢
  rw [List.length_cons, decodeFuel_cons _ _ _ _ _ hone, decodeFuel_nil]
  rfl

/-- Decoding the UTF-8 encoding of a character gives back exactly that one
character (as its code point). -/
theorem utf8DecodeAll_encodeChar (c : Char) :
    utf8DecodeAll (encodeChar c) = some [c.toNat] := by
  have hvalid : c.val.toNat < 0xD800 ∨ (0xDFFF < c.val.toNat ∧ c.val.toNat < 0x110000) :=
    c.valid
  have hto : c.toNat = c.val.toNat := rfl
  refine utf8DecodeAll_encodeCp c.toNat ?_ ?_ <;> rw [hto] <;> omega

theorem CharRanges.next_nil (f : Nat) :
    CharRanges.next ⟨⟨f, []⟩⟩ = (none, ⟨⟨f, []⟩⟩) := rfl

theorem CharRanges.next_cons (f : Nat) (c : Char) (rest : List Char) :
    CharRanges.next ⟨⟨f, c :: rest⟩⟩
      = (some ((f, f + lenUtf8 c), c), ⟨⟨f + lenUtf8 c, rest⟩⟩) := rfl

theorem charIndices_next_back_concat (f : Nat) (xs : List Char) (c : Char) :
    CharIndices.next_back ⟨f, xs ++ [c]⟩ = (some (f + byteLen xs, c), ⟨f, xs⟩) := by
  unfold CharIndices.next_back
  simp [List.getLast?_concat, List.dropLast_concat]

theorem CharRanges.next_back_nil (f : Nat) :
    CharRanges.next_back ⟨⟨f, []⟩⟩ = (none, ⟨⟨f, []⟩⟩) := rfl

theorem CharRanges.next_back_concat (f : Nat) (xs : List Char) (c : Char) :
    CharRanges.next_back ⟨⟨f, xs ++ [c]⟩⟩
      = (some ((f + byteLen xs, f + byteLen xs + lenUtf8 c), c), ⟨⟨f, xs⟩⟩) := by
  unfold CharRanges.next_back
  rw [charIndices_next_back_concat]
  rfl

theorem CharRanges.nth_zero (s : CharRanges) : s.nth 0 = s.next := rfl

theorem CharRanges.nth_succ_nil (f n : Nat) :
    CharRanges.nth ⟨⟨f, []⟩⟩ (n + 1) = (none, ⟨⟨f, []⟩⟩) := rfl

theorem CharRanges.nth_succ_cons (f : Nat) (c : Char) (rest : List Char) (n : Nat) :
    CharRanges.nth ⟨⟨f, c :: rest⟩⟩ (n + 1)
      = CharRanges.nth ⟨⟨f + lenUtf8 c, rest⟩⟩ n := rfl

theorem CharRanges.nth_back_zero (s : CharRanges) : s.nth_back 0 = s.next_back := rfl

theorem CharRanges.nth_back_succ_nil (f n : Nat) :
    CharRanges.nth_back ⟨⟨f, []⟩⟩ (n + 1) = (none, ⟨⟨f, []⟩⟩) := rfl

theorem CharRanges.nth_back_succ_concat (f : Nat) (xs : List Char) (c : Char) (n : Nat) :
    CharRanges.nth_back ⟨⟨f, xs ++ [c]⟩⟩ (n + 1) = CharRanges.nth_back ⟨⟨f, xs⟩⟩ n := by
  unfold CharRanges.nth_back
  rw [CharIndices.nth_back, charIndices_next_back_concat]

theorem cursorInv_new (t : List Char) : CursorInv t (CharRanges.new t) :=
  ⟨[], [], by simp [CharRanges.new], rfl⟩

theorem cursorInv_next (t : List Char) (s : CharRanges) (h : CursorInv t s) :
    CursorInv t (s.next).2 := by
  obtain ⟨pre, post, ht, hf⟩ := h
  obtain ⟨⟨f, chars⟩⟩ := s
  cases chars with
  | nil => exact ⟨pre, post, ht, hf⟩
  | cons c rest =>
    rw [CharRanges.next_cons]
    refine ⟨pre ++ [c], post, ?_, ?_⟩
    · simpa using ht
    · simp only [hf, byteLen_append, byteLen_cons, byteLen_nil] at *
      omega

theorem cursorInv_next_back (t : List Char) (s : CharRanges) (h : CursorInv t s) :
    CursorInv t (s.next_back).2 := by
  obtain ⟨pre, post, ht, hf⟩ := h
  obtain ⟨⟨f, chars⟩⟩ := s
  rcases List.eq_nil_or_concat chars with hnil | ⟨xs, c, hxs⟩
  · subst hnil; exact ⟨pre, post, ht, hf⟩
  · rw [List.concat_eq_append] at hxs
    subst hxs
    rw [CharRanges.next_back_concat]
    refine ⟨pre, c :: post, ?_, hf⟩
    simpa using ht

theorem cursorInv_nth (t : List Char) (s : CharRanges) (n : Nat) (h : CursorInv t s) :
    CursorInv t (s.nth n).2 := by
  induction n generalizing s with
  | zero => exact cursorInv_next t s h
  | succ n ih =>
    obtain ⟨⟨f, chars⟩⟩ := s
    cases chars with
    | nil => rw [CharRanges.nth_succ_nil]; exact h
    | cons c rest =>
      rw [CharRanges.nth_succ_cons]
      exact ih _ (by simpa using cursorInv_next t ⟨⟨f, c :: rest⟩⟩ h)

theorem cursorInv_nth_back (t : List Char) (s : CharRanges) (n : Nat) (h : CursorInv t s) :
    CursorInv t (s.nth_back n).2 := by
  induction n generalizing s with
  | zero => exact cursorInv_next_back t s h
  | succ n ih =>
    obtain ⟨⟨f, chars⟩⟩ := s
    rcases List.eq_nil_or_concat chars with hnil | ⟨xs, c, hxs⟩
    · subst hnil; rw [CharRanges.nth_back_succ_nil]; exact h
    · rw [List.concat_eq_append] at hxs
      subst hxs
      rw [CharRanges.nth_back_succ_concat]
      have h2 := cursorInv_next_back t ⟨⟨f, xs ++ [c]⟩⟩ h
      rw [CharRanges.next_back_concat] at h2
      exact ih _ h2

theorem cursorInv_exec (t : List Char) (s : CharRanges) (op : Op) (h : CursorInv t s) :
    CursorInv t (s.exec op).2 := by
  cases op with
  | next => exact cursorInv_next t s h
  | next_back => exact cursorInv_next_back t s h
  | nth n => exact cursorInv_nth t s n h
  | nth_back n => exact cursorInv_nth_back t s n h

theorem cursorInv_run (t : List Char) (s : CharRanges) (ops : List Op) (h : CursorInv t s) :
    CursorInv t (s.run ops) := by
  induction ops generalizing s with
  | nil => exact h
  | cons op ops ih => exact ih _ (cursorInv_exec t s op h)

theorem slice_encode (A B : List Char) (c : Char) :
    ((encodeText (A ++ c :: B)).drop (byteLen A)).take (lenUtf8 c) = encodeChar c := by
  rw [encodeText_append, encodeText_cons, ← length_encodeText A, List.drop_left,
    ← length_encodeChar, List.take_left]

theorem next_yield_sound (t : List Char) (s : CharRanges) (st en : Nat) (c : Char)
    (hinv : CursorInv t s) (h : (s.next).1 = some ((st, en), c)) :
    en = st + lenUtf8 c ∧ ((encodeText t).drop st).take (en - st) = encodeChar c ∧
      en ≤ byteLen t := by
  obtain ⟨pre, post, ht, hf⟩ := hinv
  obtain ⟨⟨f, chars⟩⟩ := s
  have ht2 : t = pre ++ chars ++ post := ht
  have hf2 : f = byteLen pre := hf
  cases chars with
  | nil =>
    rw [CharRanges.next_nil] at h
    simp at h
  | cons c0 rest =>
    rw [CharRanges.next_cons] at h
    simp only [Option.some.injEq, Prod.mk.injEq] at h
    obtain ⟨⟨h1, h2⟩, h3⟩ := h
    subst h3
    have htt : t = pre ++ c0 :: (rest ++ post) := by rw [ht2]; simp
    have hbt : byteLen t = byteLen pre + (lenUtf8 c0 + byteLen (rest ++ post)) := by
      rw [htt, byteLen_append, byteLen_cons]
    refine ⟨by omega, ?_, by omega⟩
    have hd : en - st = lenUtf8 c0 := by omega
    rw [hd, htt, show st = byteLen pre by omega]
    exact slice_encode pre (rest ++ post) c0

theorem next_back_yield_sound (t : List Char) (s : CharRanges) (st en : Nat) (c : Char)
    (hinv : CursorInv t s) (h : (s.next_back).1 = some ((st, en), c)) :
    en = st + lenUtf8 c ∧ ((encodeText t).drop st).take (en - st) = encodeChar c ∧
      en ≤ byteLen t := by
  obtain ⟨pre, post, ht, hf⟩ := hinv
  obtain ⟨⟨f, chars⟩⟩ := s
  have ht2 : t = pre ++ chars ++ post := ht
  have hf2 : f = byteLen pre := hf
  rcases List.eq_nil_or_concat chars with hnil | ⟨xs, c0, hxs⟩
  · subst hnil
    rw [CharRanges.next_back_nil] at h
    simp at h
  · rw [List.concat_eq_append] at hxs
    subst hxs
    rw [CharRanges.next_back_concat] at h
    simp only [Option.some.injEq, Prod.mk.injEq] at h
    obtain ⟨⟨h1, h2⟩, h3⟩ := h
    subst h3
    have htt : t = (pre ++ xs) ++ c0 :: post := by rw [ht2]; simp
    have hbt : byteLen t = byteLen (pre ++ xs) + (lenUtf8 c0 + byteLen post) := by
      rw [htt, byteLen_append, byteLen_cons]
    have hpx : byteLen (pre ++ xs) = byteLen pre + byteLen xs := byteLen_append pre xs
    refine ⟨by omega, ?_, by omega⟩
    have hd : en - st = lenUtf8 c0 := by omega
    rw [hd, htt, show st = byteLen (pre ++ xs) by omega]
    exact slice_encode (pre ++ xs) post c0

theorem nth_yield_sound (t : List Char) (s : CharRanges) (n : Nat) (st en : Nat) (c : Char)
    (hinv : CursorInv t s) (h : (s.nth n).1 = some ((st, en), c)) :
    en = st + lenUtf8 c ∧ ((encodeText t).drop st).take (en - st) = encodeChar c ∧
      en ≤ byteLen t := by
  induction n generalizing s with
  | zero => exact next_yield_sound t s st en c hinv h
  | succ n ih =>
    obtain ⟨⟨f, chars⟩⟩ := s
    cases chars with
    | nil =>
      rw [CharRanges.nth_succ_nil] at h
      simp at h
    | cons c0 rest =>
      rw [CharRanges.nth_succ_cons] at h
      have hinv2 := cursorInv_next t ⟨⟨f, c0 :: rest⟩⟩ hinv
      rw [CharRanges.next_cons] at hinv2
      exact ih _ hinv2 h

theorem nth_back_yield_sound (t : List Char) (s : CharRanges) (n : Nat) (st en : Nat) (c : Char)
    (hinv : CursorInv t s) (h : (s.nth_back n).1 = some ((st, en), c)) :
    en = st + lenUtf8 c ∧ ((encodeText t).drop st).take (en - st) = encodeChar c ∧
      en ≤ byteLen t := by
  induction n generalizing s with
  | zero => exact next_back_yield_sound t s st en c hinv h
  | succ n ih =>
    obtain ⟨⟨f, chars⟩⟩ := s
    rcases List.eq_nil_or_concat chars with hnil | ⟨xs, c0, hxs⟩
    · subst hnil
      rw [CharRanges.nth_back_succ_nil] at h
      simp at h
    · rw [List.concat_eq_append] at hxs
      subst hxs
      rw [CharRanges.nth_back_succ_concat] at h
      have hinv2 := cursorInv_next_back t ⟨⟨f, xs ++ [c0]⟩⟩ hinv
      rw [CharRanges.next_back_concat] at hinv2
      exact ih _ hinv2 h

theorem exec_yield_sound (t : List Char) (s : CharRanges) (op : Op) (st en : Nat) (c : Char)
    (hinv : CursorInv t s) (h : (s.exec op).1 = some ((st, en), c)) :
    en = st + lenUtf8 c ∧ ((encodeText t).drop st).take (en - st) = encodeChar c ∧
      en ≤ byteLen t := by
  cases op with
  | next => exact next_yield_sound t s st en c hinv h
  | next_back => exact next_back_yield_sound t s st en c hinv h
  | nth n => exact nth_yield_sound t s n st en c hinv h
  | nth_back n => exact nth_back_yield_sound t s n st en c hinv h

/-- C1. For every valid UTF-8 input text and every (range, character)
pair yielded by any traversal call (`next`, `next_back`, `nth`, `nth_back`)
of `CharRanges`, the range is a half-open interval `[start, end)` with
`end - start` equal to the UTF-8 encoded byte length of the character, and
the bytes of the original text at exactly `start..end` decode to exactly
that one character and nothing else. -/
theorem c1_yielded_range_exact (t : List Char) (ops : List Op) (op : Op)
    (st en : Nat) (c : Char)
    (h : (((CharRanges.new t).run ops).exec op).1 = some ((st, en), c)) :
    en - st = lenUtf8 c ∧
      ((encodeText t).drop st).take (en - st) = encodeChar c ∧
      utf8DecodeAll (((encodeText t).drop st).take (en - st)) = some [c.toNat] := by
  have hinv := cursorInv_run t (CharRanges.new t) ops (cursorInv_new t)
  obtain ⟨h1, h2, h3⟩ := exec_yield_sound t _ op st en c hinv h
  refine ⟨by omega, h2, ?_⟩
  rw [h2]
  exact utf8DecodeAll_encodeChar c

/-- Witness for C1: the first `next` on `"ab"` yields `(0..1, 'a')`, whose
byte slice decodes back to `'a'`. -/
theorem c1_yielded_range_exact_witness :
    1 - 0 = lenUtf8 'a' ∧
      ((encodeText ['a', 'b']).drop 0).take (1 - 0) = encodeChar 'a' ∧
      utf8DecodeAll (((encodeText ['a', 'b']).drop 0).take (1 - 0)) = some ['a'.toNat] :=
  c1_yielded_range_exact ['a', 'b'] [] Op.next 0 1 'a' (by decide)

theorem toListFront_nil (f : Nat) : CharRanges.toListFront ⟨⟨f, []⟩⟩ = [] := rfl

theorem toListFront_cons (f : Nat) (c : Char) (rest : List Char) :
    CharRanges.toListFront ⟨⟨f, c :: rest⟩⟩
      = ((f, f + lenUtf8 c), c) :: CharRanges.toListFront ⟨⟨f + lenUtf8 c, rest⟩⟩ := rfl

theorem toListFront_next_some (s : CharRanges) (x : (Nat × Nat) × Char) (s1 : CharRanges)
    (h : s.next = (some x, s1)) : s.toListFront = x :: s1.toListFront := by
  obtain ⟨⟨f, chars⟩⟩ := s
  cases chars with
  | nil => rw [CharRanges.next_nil] at h; simp at h
  | cons c rest =>
    rw [CharRanges.next_cons] at h
    simp only [Prod.mk.injEq, Option.some.injEq] at h
    obtain ⟨h1, h2⟩ := h
    subst h1
    subst h2
    rfl

theorem toListFront_next_none (s : CharRanges) (h : (s.next).1 = none) :
    s.toListFront = [] := by
  obtain ⟨⟨f, chars⟩⟩ := s
  cases chars with
  | nil => rfl
  | cons c rest => rw [CharRanges.next_cons] at h; simp at h

theorem toListBack_nil (f : Nat) : CharRanges.toListBack ⟨⟨f, []⟩⟩ = [] := rfl

theorem toListBack_concat (f : Nat) (xs : List Char) (c : Char) :
    CharRanges.toListBack ⟨⟨f, xs ++ [c]⟩⟩
      = ((f + byteLen xs, f + byteLen xs + lenUtf8 c), c) :: CharRanges.toListBack ⟨⟨f, xs⟩⟩ := by
  unfold CharRanges.toListBack
  simp only [List.length_append, List.length_cons, List.length_nil]
  rw [show xs.length + (0 + 1) = xs.length + 1 by omega]
  rw [backFuel, CharRanges.next_back_concat]

theorem toListBack_next_back_some (s : CharRanges) (x : (Nat × Nat) × Char) (s1 : CharRanges)
    (h : s.next_back = (some x, s1)) : s.toListBack = x :: s1.toListBack := by
  obtain ⟨⟨f, chars⟩⟩ := s
  rcases List.eq_nil_or_concat chars with hnil | ⟨xs, c, hxs⟩
  · subst hnil; rw [CharRanges.next_back_nil] at h; simp at h
  · rw [List.concat_eq_append] at hxs
    subst hxs
    rw [CharRanges.next_back_concat] at h
    simp only [Prod.mk.injEq, Option.some.injEq] at h
    obtain ⟨h1, h2⟩ := h
    subst h1
    subst h2
    exact toListBack_concat f xs c

theorem toListBack_next_back_none (s : CharRanges) (h : (s.next_back).1 = none) :
    s.toListBack = [] := by
  obtain ⟨⟨f, chars⟩⟩ := s
  rcases List.eq_nil_or_concat chars with hnil | ⟨xs, c, hxs⟩
  · subst hnil; rfl
  · rw [List.concat_eq_append] at hxs
    subst hxs
    rw [CharRanges.next_back_concat] at h
    simp at h

theorem toListFrontAux_map_snd (f : Nat) (l : List Char) :
    (toListFrontAux f l).map Prod.snd = l := by
  induction l generalizing f with
  | nil => rfl
  | cons c rest ih => simp [toListFrontAux, ih]

theorem toListFrontAux_concat (f : Nat) (xs : List Char) (c : Char) :
    toListFrontAux f (xs ++ [c])
      = toListFrontAux f xs ++ [((f + byteLen xs, f + byteLen xs + lenUtf8 c), c)] := by
  induction xs generalizing f with
  | nil => simp [toListFrontAux, byteLen_nil]
  | cons x rest ih =>
    have h1 : toListFrontAux f ((x :: rest) ++ [c])
        = ((f, f + lenUtf8 x), x) :: toListFrontAux (f + lenUtf8 x) (rest ++ [c]) := rfl
    have h2 : toListFrontAux f (x :: rest)
        = ((f, f + lenUtf8 x), x) :: toListFrontAux (f + lenUtf8 x) rest := rfl
    rw [h1, h2, ih, byteLen_cons]
    simp [Nat.add_assoc]

theorem toListFront_rev (f : Nat) (l : List Char) :
    toListFrontAux f l = (CharRanges.toListBack ⟨⟨f, l⟩⟩).reverse := by
  induction l using List.reverseRecOn with
  | nil => rfl
  | append_singleton xs c ih =>
    rw [toListFrontAux_concat, toListBack_concat, List.reverse_cons, ih]

theorem toListFront_def (f : Nat) (l : List Char) :
    CharRanges.toListFront ⟨⟨f, l⟩⟩ = toListFrontAux f l := rfl

/-- C3. For every valid input text, concatenating the characters yielded
by a full front-to-back traversal of `CharRanges` (repeated `next` until
exhaustion) reproduces the original text exactly. -/
theorem c3_front_traversal_reproduces_text (t : List Char) :
    ((CharRanges.new t).toListFront).map Prod.snd = t :=
  toListFrontAux_map_snd 0 t

/-- C5. For every valid input text, the sequence of (range, character)
items produced by full front-to-back traversal (repeated `next`) is the
reverse of the sequence produced by full back-to-front traversal (repeated
`next_back`) of the same text. -/
theorem c5_front_is_reverse_of_back (t : List Char) :
    (CharRanges.new t).toListFront = ((CharRanges.new t).toListBack).reverse :=
  toListFront_rev 0 t

/-- C7. For every state of a `CharRanges`, `last()` returns the final
item of a full front-to-back traversal, equals the first item obtained when
repeatedly taking from the back, and returns nothing on empty remaining
text. -/
theorem c7_last_is_final_item (s : CharRanges) :
    s.last = (s.toListFront).getLast? ∧ s.last = (s.toListBack).head? ∧
      (s.as_str = [] → s.last = none) := by
  obtain ⟨⟨f, chars⟩⟩ := s
  rcases List.eq_nil_or_concat chars with hnil | ⟨xs, c, hxs⟩
  · subst hnil
    exact ⟨rfl, rfl, fun _ => rfl⟩
  · rw [List.concat_eq_append] at hxs
    subst hxs
    have hlast : CharRanges.last ⟨⟨f, xs ++ [c]⟩⟩
        = some ((f + byteLen xs, f + byteLen xs + lenUtf8 c), c) := by
      unfold CharRanges.last
      rw [CharRanges.next_back_concat]
    refine ⟨?_, ?_, ?_⟩
    · rw [hlast, toListFront_def, toListFrontAux_concat, List.getLast?_concat]
    · rw [hlast, toListBack_concat]
      rfl
    · intro h
      exact absurd h (by simp [CharRanges.as_str, CharIndices.as_str])

/-- Witness for C7's conditional part: on empty remaining text, `last()`
returns nothing. -/
theorem c7_last_is_final_item_witness :
    CharRanges.last (CharRanges.new []) = none :=
  (c7_last_is_final_item (CharRanges.new [])).2.2 rfl

/-- C6. `nth n` skips `n` characters from the front and returns the
(n+1)-th remaining item, or nothing if fewer than `n + 1` remain
(symmetrically for `nth_back`); and `nth 0` is the same state transformer
as `next`, so repeating `nth 0` is observationally equivalent (same items,
same final states) to repeating `next`. -/
theorem c6_nth_skips_and_nth_zero_is_next :
    (∀ (s : CharRanges) (n : Nat), (s.nth n).1 = (s.toListFront).get? n) ∧
    (∀ (s : CharRanges) (n : Nat), (s.nth_back n).1 = (s.toListBack).get? n) ∧
    (∀ s : CharRanges, s.nth 0 = s.next) := by
  refine ⟨?_, ?_, fun s => rfl⟩
  · intro s n
    induction n generalizing s with
    | zero =>
      obtain ⟨⟨f, chars⟩⟩ := s
      cases chars with
      | nil => rfl
      | cons c rest => rfl
    | succ n ih =>
      obtain ⟨⟨f, chars⟩⟩ := s
      cases chars with
      | nil => rfl
      | cons c rest =>
        rw [CharRanges.nth_succ_cons, toListFront_cons, List.get?_cons_succ]
        exact ih _
  · intro s n
    induction n generalizing s with
    | zero =>
      obtain ⟨⟨f, chars⟩⟩ := s
      rcases List.eq_nil_or_concat chars with hnil | ⟨xs, c, hxs⟩
      · subst hnil; rfl
      · rw [List.concat_eq_append] at hxs
        subst hxs
        rw [CharRanges.nth_back_zero, CharRanges.next_back_concat, toListBack_concat]
        rfl
    | succ n ih =>
      obtain ⟨⟨f, chars⟩⟩ := s
      rcases List.eq_nil_or_concat chars with hnil | ⟨xs, c, hxs⟩
      · subst hnil; rfl
      · rw [List.concat_eq_append] at hxs
        subst hxs
        rw [CharRanges.nth_back_succ_concat, toListBack_concat, List.get?_cons_succ]
        exact ih _

theorem charRangesOffset_exec_delegates (s : CharRanges) (o : Nat) (op : Op) :
    CharRangesOffset.exec ⟨s, o⟩ op
      = (((s.exec op).1).map (shiftItem o), ⟨(s.exec op).2, o⟩) := by
  cases op <;> rfl

theorem charRangesOffset_run_eq (s : CharRanges) (o : Nat) (ops : List Op) :
    CharRangesOffset.run ⟨s, o⟩ ops = ⟨s.run ops, o⟩ := by
  induction ops generalizing s with
  | nil => rfl
  | cons op ops ih =>
    rw [CharRangesOffset.run, charRangesOffset_exec_delegates, CharRanges.run]
    exact ih _

theorem charRangesOffset_runOutputs_eq (s : CharRanges) (o : Nat) (ops : List Op) :
    CharRangesOffset.runOutputs ⟨s, o⟩ ops
      = (s.runOutputs ops).map (fun x => x.map (shiftItem o)) := by
  induction ops generalizing s with
  | nil => rfl
  | cons op ops ih =>
    rw [CharRangesOffset.runOutputs, charRangesOffset_exec_delegates,
      CharRanges.runOutputs, List.map_cons]
    exact congrArg _ (ih _)

/-- C9. The `offset()` accessor of `CharRangesOffset` returns the value
the instance was configured with at construction, and that value is
unchanged by every sequence of traversal operations (`next`, `next_back`,
`nth`, `nth_back`). -/
theorem c9_offset_immutable (o : Nat) (t : List Char) (ops : List Op) :
    (CharRangesOffset.new o t).offset = o ∧
      ((CharRangesOffset.new o t).run ops).offset = o := by
  refine ⟨rfl, ?_⟩
  rw [show CharRangesOffset.new o t = ⟨CharRanges.new t, o⟩ from rfl,
    charRangesOffset_run_eq]

theorem frontFuelO_eq (fuel : Nat) (f : Nat) (l : List Char) (o : Nat)
    (h : l.length ≤ fuel) :
    frontFuelO fuel ⟨⟨⟨f, l⟩⟩, o⟩ = (toListFrontAux f l).map (shiftItem o) := by
  induction fuel generalizing f l with
  | zero =>
    rw [Nat.le_zero] at h
    rw [List.length_eq_zero] at h
    subst h
    rfl
  | succ fuel ih =>
    cases l with
    | nil => rfl
    | cons c rest =>
      have hnext : CharRangesOffset.next ⟨⟨⟨f, c :: rest⟩⟩, o⟩
          = (some (shiftItem o ((f, f + lenUtf8 c), c)), ⟨⟨⟨f + lenUtf8 c, rest⟩⟩, o⟩) := rfl
      rw [frontFuelO, hnext]
      rw [show toListFrontAux f (c :: rest)
          = ((f, f + lenUtf8 c), c) :: toListFrontAux (f + lenUtf8 c) rest from rfl,
        List.map_cons]
      exact congrArg _ (ih _ _ (by simpa using Nat.le_of_succ_le_succ h))

/-- C4. Every range-producing operation of `CharRangesOffset` returns
exactly the result of the same operation on the wrapped `CharRanges` with
the offset added (as `usize` addition) to both bounds of the range; its
`as_str` accessor is unaffected by the offset; and the full item sequence
equals the manual addition of the offset to the sequence produced by
iterating the text directly. -/
theorem c4_offset_delegation (o : Nat) :
    (∀ s : CharRanges, CharRangesOffset.next ⟨s, o⟩
        = (((s.next).1).map (shiftItem o), ⟨(s.next).2, o⟩)) ∧
    (∀ s : CharRanges, CharRangesOffset.next_back ⟨s, o⟩
        = (((s.next_back).1).map (shiftItem o), ⟨(s.next_back).2, o⟩)) ∧
    (∀ (s : CharRanges) (n : Nat), CharRangesOffset.nth ⟨s, o⟩ n
        = (((s.nth n).1).map (shiftItem o), ⟨(s.nth n).2, o⟩)) ∧
    (∀ (s : CharRanges) (n : Nat), CharRangesOffset.nth_back ⟨s, o⟩ n
        = (((s.nth_back n).1).map (shiftItem o), ⟨(s.nth_back n).2, o⟩)) ∧
    (∀ s : CharRanges, CharRangesOffset.as_str ⟨s, o⟩ = s.as_str) ∧
    (∀ t : List Char, (CharRangesOffset.new o t).toListFront
        = ((CharRanges.new t).toListFront).map (shiftItem o)) := by
  refine ⟨fun s => rfl, fun s => rfl, fun s n => rfl, fun s n => rfl, fun s => rfl, ?_⟩
  intro t
  exact frontFuelO_eq t.length 0 t o (le_refl _)

theorem uadd_of_lt (o x : Nat) (h : x + o < USIZE) : uadd o x = x + o := by
  unfold uadd
  exact Nat.mod_eq_of_lt h

/-- C8, amended. Every range yielded by `CharRanges` satisfies
`end > start` (with non-negative bounds, by the `Nat` representation).  For
`CharRangesOffset` this holds whenever the `usize` addition of the offset
does not wrap, i.e. when `offset + byte length of the text < 2 ^ 64`;
under wrap-around `end > start` can fail (see the counterexample). -/
theorem c8_range_end_gt_start (t : List Char) (ops : List Op) (op : Op) :
    (∀ (st en : Nat) (c : Char),
      (((CharRanges.new t).run ops).exec op).1 = some ((st, en), c) → st < en) ∧
    (∀ (o st en : Nat) (c : Char), o + byteLen t < USIZE →
      (((CharRangesOffset.new o t).run ops).exec op).1 = some ((st, en), c) → st < en) := by
  have hinv := cursorInv_run t (CharRanges.new t) ops (cursorInv_new t)
  constructor
  · intro st en c h
    obtain ⟨h1, _, _⟩ := exec_yield_sound t _ op st en c hinv h
    have := lenUtf8_pos c
    omega
  · intro o st en c hov h
    rw [show CharRangesOffset.new o t = ⟨CharRanges.new t, o⟩ from rfl,
      charRangesOffset_run_eq, charRangesOffset_exec_delegates] at h
    simp only at h
    rcases Option.map_eq_some'.mp h with ⟨⟨⟨st0, en0⟩, c0⟩, hinner, hshift⟩
    obtain ⟨h1, _, h3⟩ := exec_yield_sound t _ op st0 en0 c0 hinv hinner
    have hlen := lenUtf8_pos c0
    simp only [shiftItem, Prod.mk.injEq] at hshift
    obtain ⟨⟨hs, he⟩, _⟩ := hshift
    rw [← hs, ← he, uadd_of_lt o st0 (by omega), uadd_of_lt o en0 (by omega)]
    omega

/-- Witness for C8: concrete yields on `"a"` with offsets 0 and 5. -/
theorem c8_range_end_gt_start_witness : (0 : Nat) < 1 ∧ (5 : Nat) < 6 :=
  ⟨(c8_range_end_gt_start ['a'] [] Op.next).1 0 1 'a' (by decide),
   (c8_range_end_gt_start ['a'] [] Op.next).2 5 5 6 'a' (by decide) (by decide)⟩

/-- Counterexample to C8 as stated: with the text `"a"` and the configured
offset `usize::MAX`, the first `next` of the offset variant yields the
wrapped range `(usize::MAX, 0)`, whose end is not greater than its start. -/
theorem c8_counterexample :
    ((CharRangesOffset.new (USIZE - 1) ['a']).next).1 = some ((USIZE - 1, 0), 'a')
      ∧ ¬(USIZE - 1 < 0) := by
  constructor
  · decide
  · omega

theorem exec_on_empty (f : Nat) (op : Op) :
    CharRanges.exec ⟨⟨f, []⟩⟩ op = (none, ⟨⟨f, []⟩⟩) := by
  cases op with
  | next => rfl
  | next_back => rfl
  | nth n => cases n <;> rfl
  | nth_back n => cases n <;> rfl

theorem next_none_empty (s : CharRanges) (h : (s.next).1 = none) :
    ((s.next).2).iter.chars = [] := by
  obtain ⟨⟨f, chars⟩⟩ := s
  cases chars with
  | nil => rfl
  | cons c rest => rw [CharRanges.next_cons] at h; simp at h

theorem next_back_none_empty (s : CharRanges) (h : (s.next_back).1 = none) :
    ((s.next_back).2).iter.chars = [] := by
  obtain ⟨⟨f, chars⟩⟩ := s
  rcases List.eq_nil_or_concat chars with hnil | ⟨xs, c, hxs⟩
  · subst hnil; rfl
  · rw [List.concat_eq_append] at hxs
    subst hxs
    rw [CharRanges.next_back_concat] at h
    simp at h

theorem nth_none_empty (s : CharRanges) (n : Nat) (h : (s.nth n).1 = none) :
    ((s.nth n).2).iter.chars = [] := by
  induction n generalizing s with
  | zero => exact next_none_empty s h
  | succ n ih =>
    obtain ⟨⟨f, chars⟩⟩ := s
    cases chars with
    | nil => rfl
    | cons c rest =>
      rw [CharRanges.nth_succ_cons] at h ⊢
      exact ih _ h

theorem nth_back_none_empty (s : CharRanges) (n : Nat) (h : (s.nth_back n).1 = none) :
    ((s.nth_back n).2).iter.chars = [] := by
  induction n generalizing s with
  | zero => exact next_back_none_empty s h
  | succ n ih =>
    obtain ⟨⟨f, chars⟩⟩ := s
    rcases List.eq_nil_or_concat chars with hnil | ⟨xs, c, hxs⟩
    · subst hnil; rfl
    · rw [List.concat_eq_append] at hxs
      subst hxs
      rw [CharRanges.nth_back_succ_concat] at h ⊢
      exact ih _ h

theorem exec_none_empty (s : CharRanges) (op : Op) (h : (s.exec op).1 = none) :
    ((s.exec op).2).iter.chars = [] := by
  cases op with
  | next => exact next_none_empty s h
  | next_back => exact next_back_none_empty s h
  | nth n => exact nth_none_empty s n h
  | nth_back n => exact nth_back_none_empty s n h

theorem run_on_empty (f : Nat) (ops : List Op) :
    CharRanges.run ⟨⟨f, []⟩⟩ ops = ⟨⟨f, []⟩⟩ := by
  induction ops with
  | nil => rfl
  | cons op ops ih => rw [CharRanges.run, exec_on_empty]; exact ih

theorem runOutputs_on_empty (f : Nat) (ops : List Op) :
    ∀ x ∈ CharRanges.runOutputs ⟨⟨f, []⟩⟩ ops, x = none := by
  induction ops with
  | nil => intro x hx; simp [CharRanges.runOutputs] at hx
  | cons op ops ih =>
    intro x hx
    rw [CharRanges.runOutputs, exec_on_empty] at hx
    rcases List.mem_cons.mp hx with h1 | h2
    · exact h1
    · exact ih x h2

theorem run_of_empty (s : CharRanges) (ops : List Op) (h : s.iter.chars = []) :
    s.run ops = s := by
  obtain ⟨⟨f, chars⟩⟩ := s
  have hc : chars = [] := h
  subst hc
  exact run_on_empty f ops

theorem runOutputs_of_empty (s : CharRanges) (ops : List Op) (h : s.iter.chars = []) :
    ∀ x ∈ s.runOutputs ops, x = none := by
  obtain ⟨⟨f, chars⟩⟩ := s
  have hc : chars = [] := h
  subst hc
  exact runOutputs_on_empty f ops

/-- C10. Once any traversal call on a `CharRanges` or `CharRangesOffset`
returns nothing, every subsequent sequence of calls also returns nothing and
the remaining view is empty (the iterators are fused). -/
theorem c10_fused (t : List Char) (ops : List Op) (op : Op) (ops2 : List Op) :
    ((((CharRanges.new t).run ops).exec op).1 = none →
      (∀ x ∈ ((((CharRanges.new t).run ops).exec op).2).runOutputs ops2, x = none) ∧
      (((((CharRanges.new t).run ops).exec op).2).run ops2).as_str = []) ∧
    (∀ o : Nat, (((CharRangesOffset.new o t).run ops).exec op).1 = none →
      (∀ x ∈ ((((CharRangesOffset.new o t).run ops).exec op).2).runOutputs ops2, x = none) ∧
      (((((CharRangesOffset.new o t).run ops).exec op).2).run ops2).as_str = []) := by
  constructor
  · intro h
    have hemp := exec_none_empty _ op h
    refine ⟨runOutputs_of_empty _ ops2 hemp, ?_⟩
    rw [run_of_empty _ ops2 hemp]
    exact hemp
  · intro o h
    rw [show CharRangesOffset.new o t = ⟨CharRanges.new t, o⟩ from rfl,
      charRangesOffset_run_eq, charRangesOffset_exec_delegates] at h ⊢
    simp only at h ⊢
    have hin : (((CharRanges.new t).run ops).exec op).1 = none := by
      rcases hopt : (((CharRanges.new t).run ops).exec op).1 with _ | x
      · rfl
      · rw [hopt] at h; simp at h
    have hemp := exec_none_empty _ op hin
    constructor
    · intro x hx
      rw [charRangesOffset_runOutputs_eq] at hx
      rcases List.mem_map.mp hx with ⟨y, hy, hxy⟩
      rw [runOutputs_of_empty _ ops2 hemp y hy] at hxy
      exact hxy.symm
    · rw [charRangesOffset_run_eq, run_of_empty _ ops2 hemp]
      exact hemp

/-- Witness for C10: after exhausting `"a"`, further calls yield nothing
and the remaining view is empty, for both variants. -/
theorem c10_fused_witness :
    (((((CharRanges.new ['a']).run [Op.next]).exec Op.next).2).run [Op.next_back]).as_str = []
      ∧ (((((CharRangesOffset.new 7 ['a']).run [Op.next]).exec
            Op.next).2).run [Op.next_back]).as_str = [] :=
  ⟨((c10_fused ['a'] [Op.next] Op.next [Op.next_back]).1 (by decide)).2,
   ((c10_fused ['a'] [Op.next] Op.next [Op.next_back]).2 7 (by decide)).2⟩

theorem take_drop_middle_exact (A B C : List Nat) :
    ((A ++ B ++ C).take (A.length + B.length)).drop A.length = B := by
  rw [show A.length + B.length = (A ++ B).length by rw [List.length_append]]
  rw [List.take_left, List.drop_left]

theorem boundsConsumed_invariant (t : List Char) (ops : List Op) (s : CharRanges)
    (f b : Option Nat) (hinv : CursorInv t s)
    (hf : f.getD 0 = s.iter.frontOffset) (hb : b.getD (byteLen t) = backByte s) :
    encodeText ((s.run ops).as_str)
      = ((encodeText t).take ((boundsConsumed s ops f b).2.getD (byteLen t))).drop
          ((boundsConsumed s ops f b).1.getD 0) := by
  induction ops generalizing s f b with
  | nil =>
    obtain ⟨pre, post, ht, hfr⟩ := hinv
    rw [CharRanges.run, boundsConsumed]
    have hfr2 : s.iter.frontOffset = byteLen pre := hfr
    have hback : backByte s = byteLen pre + byteLen (s.iter.chars) := by
      rw [backByte, hfr2]
    show encodeText s.iter.chars
      = ((encodeText t).take (b.getD (byteLen t))).drop (f.getD 0)
    rw [hf, hb, hfr2, hback, ht, encodeText_append, encodeText_append,
      ← length_encodeText pre, ← length_encodeText s.iter.chars]
    exact (take_drop_middle_exact _ _ _).symm
  | cons op ops ih =>
    rw [CharRanges.run, boundsConsumed]
    apply ih
    · exact cursorInv_exec t s op hinv
    · by_cases hch : (s.exec op).2.iter.frontOffset ≠ s.iter.frontOffset
      · rw [if_pos hch]
        rfl
      · rw [if_neg hch]
        rw [hf]
        exact (Decidable.not_not.mp hch).symm
    · by_cases hch : backByte (s.exec op).2 ≠ backByte s
      · rw [if_pos hch]
        rfl
      · rw [if_neg hch]
        rw [hb]
        exact (Decidable.not_not.mp hch).symm

/-- C2, amended. After any interleaved sequence of front (`next`/`nth`)
and back (`next_back`/`nth_back`) calls, `as_str` returns exactly the
substring of the original text whose start boundary is the end offset of the
most recently front-consumed character (or the original start if none) and
whose end boundary is the start offset of the most recently back-consumed
character (or the original end if none) — where a call's skipped characters
count as consumed, also when the call returns nothing. -/
theorem c2_as_str_between_consumed (t : List Char) (ops : List Op) :
    encodeText (((CharRanges.new t).run ops).as_str)
      = ((encodeText t).take
            ((boundsConsumed (CharRanges.new t) ops none none).2.getD (byteLen t))).drop
          ((boundsConsumed (CharRanges.new t) ops none none).1.getD 0) :=
  boundsConsumed_invariant t ops (CharRanges.new t) none none (cursorInv_new t) rfl
    (by simp [backByte, CharRanges.new])

/-- Counterexample to C2 as stated (boundaries taken from yielded items
only): on `"ab"`, the failed call `nth 5` consumes the whole text — the
remaining view becomes empty — yet yields no item, so the most recently
yielded boundaries still delimit the whole text. -/
theorem c2_counterexample :
    encodeText (((CharRanges.new ['a', 'b']).run [Op.nth 5]).as_str)
      ≠ ((encodeText ['a', 'b']).take
            ((boundsYield (CharRanges.new ['a', 'b']) [Op.nth 5] none none).2.getD
              (byteLen ['a', 'b']))).drop
          ((boundsYield (CharRanges.new ['a', 'b']) [Op.nth 5] none none).1.getD 0) := by
  decide
